import Mathlib

/-!
Verification of the fixed-capacity sliding bitmap range
(`include/fastrtps/utils/fixed_size_bitmap.hpp`, class `BitmapRange`).

The embedding instantiates the template at its default size `NBITS = 256`
(so `NITEMS = 8`), with `T = Nat` (sequence numbers) and the default
difference functor `a - b`, truncated to 32 bits exactly where the C++
code assigns the difference to a `uint32_t`.  Machine words are modelled
as natural numbers below `2 ^ 32`; every place the C++ code can wrap a
32-bit value takes an explicit `% 2 ^ 32`.  The bitmap array
`std::array<uint32_t, NITEMS>` is modelled as a function `Fin 8 → Nat`.
-/

namespace FixedBitmap

/-- Template parameter `NBITS` at its default value. -/
abbrev NBITS : Nat := 256

/-- Number of 32-bit words, `(NBITS + 31) / 32`. -/
abbrev NITEMS : Nat := 8

/-- Modulus of a 32-bit machine word. -/
abbrev U32 : Nat := 4294967296

/-- Truncation to 32 bits, applied wherever the C++ code wraps a `uint32_t`. -/
def u32 (n : Nat) : Nat := n % U32

/-- State of `BitmapRange<T, DiffFunction<T>, 256>` with `T = Nat`. -/
structure BitmapRange where
  base : Nat
  range_max : Nat
  bitmap : Fin NITEMS → Nat
  num_bits : Nat

/-- The all-zero word array (`bitmap_.fill(0UL)`). -/
def zeroW : Fin NITEMS → Nat := fun _ => 0

/-- Read word `i` of the array; out-of-range reads give 0 (they do not occur
in the guarded C++ paths). -/
def wordOf (ws : Fin NITEMS → Nat) (i : Nat) : Nat :=
  if h : i < NITEMS then ws ⟨i, h⟩ else 0

/-- Bit at offset `k`: word `k / 32`, most significant bit first, so bit
position `31 - k % 32` inside the word. -/
def bitGet (ws : Fin NITEMS → Nat) (k : Nat) : Bool :=
  (wordOf ws (k / 32)).testBit (31 - k % 32)

/-- Well-formed word array: every word is a 32-bit value. -/
def WfW (ws : Fin NITEMS → Nat) : Prop := ∀ i, ws i < U32

/-- Constructor `BitmapRange(T base)`: empty range with the given base. -/
def bitmapRange (b : Nat) : BitmapRange :=
  { base := b, range_max := b + (NBITS - 1), bitmap := zeroW, num_bits := 0 }

/-- Method `void base(T base)`: hard reset to a new base. -/
def setBase (_s : BitmapRange) (b : Nat) : BitmapRange :=
  { base := b, range_max := b + (NBITS - 1), bitmap := zeroW, num_bits := 0 }

/-- Method `bool empty()`. -/
def isEmpty (s : BitmapRange) : Bool := s.num_bits == 0

/-- Method `T max()`: `base_ + (num_bits_ - 1)` with the `uint32_t`
subtraction wrapping when `num_bits_ = 0`. -/
def maxValue (s : BitmapRange) : Nat := s.base + (s.num_bits + (U32 - 1)) % U32

/-- Method `bool add(const T& item)`; returns the flag and the new state. -/
def add (s : BitmapRange) (item : Nat) : Bool × BitmapRange :=
  if s.base ≤ item ∧ item ≤ s.range_max then
    let diff := u32 (item - s.base)
    let nb := max (diff + 1) s.num_bits
    let pos := diff >>> 5
    let offs := diff &&& 31
    (true, { s with
      num_bits := nb,
      bitmap := fun j =>
        if j.val = pos then s.bitmap j ||| 1 <<< (31 - offs) else s.bitmap j })
  else
    (false, s)

/-- Method `bitmap_get`: returns `(num_bits, bitmap, num_longs_used)`. -/
def bitmap_get (s : BitmapRange) : Nat × (Fin NITEMS → Nat) × Nat :=
  (s.num_bits, s.bitmap, (s.num_bits + 31) / 32)

/-- Method `bitmap_set(num_bits, bitmap)`: clamp the watermark, copy the
first `⌈num_bits/32⌉` input words (the `memcpy`), zero the rest. -/
def bitmap_set (s : BitmapRange) (nb : Nat) (ws : Nat → Nat) : BitmapRange :=
  let nbc := min nb NBITS
  let nwords := (nbc + 31) / 32
  { s with
    num_bits := nbc,
    bitmap := fun j => if j.val < nwords then ws j.val else 0 }

/-- Number of leading binary digits of `v` (position of the highest set bit
plus one), computed with structural fuel. -/
def bitLen : Nat → Nat → Nat
  | 0, _ => 0
  | fuel + 1, v => if v = 0 then 0 else bitLen fuel (v / 2) + 1

/-- Model of the 32-bit `__builtin_clz` (count of leading zeroes); only used
on non-zero 32-bit values in the guarded code paths. -/
def clz32 (v : Nat) : Nat := 32 - bitLen 32 v

/-- Inner `while (bits)` loop of `for_each`: repeatedly take the most
significant set bit (offset `clz32 bits` from the word's smallest item),
emit its item, and clear it with `bits &= ~(1UL << bit)`.  The loop runs at
most 32 times on a 32-bit word; `fuel = 33` is enough to run it to
completion (proved below). -/
def whileBits : Nat → Nat → Nat → List Nat
  | 0, _, _ => []
  | fuel + 1, origin, bits =>
    if bits = 0 then []
    else
      let offset := clz32 bits
      let bit := 31 - offset
      (origin + offset) :: whileBits fuel origin (bits &&& ((U32 - 1) ^^^ (1 <<< bit)))

/-- Method `for_each`, with the callback replaced by list collection: the
returned list holds the emitted items in emission order. -/
def for_each (s : BitmapRange) : List Nat :=
  let n_longs := (s.num_bits + 31) / 32
  (List.range n_longs).flatMap fun i =>
    whileBits 33 (s.base + 32 * i) (wordOf s.bitmap i)

/-- Word-array part of `shift_map_left`: the in-place loop of the C++ code
written as a gather from the pre-shift array (the loop only reads entries
it has not yet overwritten). -/
def shift_words_left (ws : Fin NITEMS → Nat) (n : Nat) : Fin NITEMS → Nat :=
  let n_items := n >>> 5
  let r := n &&& 31
  if r = 0 then
    fun d => if d.val + n_items < NITEMS then wordOf ws (d.val + n_items) else 0
  else
    let ov := 32 - r
    fun d =>
      if d.val + n_items < NITEMS - 1 then
        u32 (wordOf ws (d.val + n_items) <<< r) ||| wordOf ws (d.val + n_items + 1) >>> ov
      else if d.val + n_items = NITEMS - 1 then
        u32 (wordOf ws (NITEMS - 1) <<< r)
      else 0

/-- Word-array part of `shift_map_right`, as a gather from the pre-shift
array (the backwards in-place loop only reads entries not yet overwritten). -/
def shift_words_right (ws : Fin NITEMS → Nat) (n : Nat) : Fin NITEMS → Nat :=
  let n_items := n >>> 5
  let r := n &&& 31
  if r = 0 then
    fun d => if n_items ≤ d.val then wordOf ws (d.val - n_items) else 0
  else
    let ov := 32 - r
    fun d =>
      if n_items + 1 ≤ d.val then
        wordOf ws (d.val - n_items) >>> r ||| u32 (wordOf ws (d.val - n_items - 1) <<< ov)
      else if d.val = n_items then
        wordOf ws 0 >>> r
      else 0

/-- The `find_new_max` scan of `shift_map_right`: walk words from the top
down to `n_items`, and on the first non-zero word take its lowest set bit
`bits & ~(bits - 1)` and return `(i << 5) + clz + 1`. -/
def scan_max (ws : Fin NITEMS → Nat) (stop : Nat) : Nat → Nat
  | 0 => 0
  | j + 1 =>
    if j + 1 ≤ stop then 0
    else
      let bits := wordOf ws j
      if bits = 0 then scan_max ws stop j
      else (j <<< 5) + (clz32 (bits &&& ((U32 - 1) ^^^ (bits - 1))) + 1)

/-- Private method `shift_map_left(n_bits)`. -/
def shift_map_left (s : BitmapRange) (n : Nat) : BitmapRange :=
  if s.num_bits ≤ n then
    { s with num_bits := 0, bitmap := zeroW }
  else
    { s with num_bits := s.num_bits - n, bitmap := shift_words_left s.bitmap n }

/-- Private method `shift_map_right(n_bits)`. -/
def shift_map_right (s : BitmapRange) (n : Nat) : BitmapRange :=
  if NBITS ≤ n then
    { s with num_bits := 0, bitmap := zeroW }
  else
    let new_num := s.num_bits + n
    let ws := shift_words_right s.bitmap n
    let nb := if NBITS < new_num then scan_max ws (n >>> 5) NITEMS else new_num
    { s with num_bits := nb, bitmap := ws }

/-- Method `void base_update(T base)`: the sliding rebase. -/
def base_update (s : BitmapRange) (b : Nat) : BitmapRange :=
  if b = s.base then s
  else
    let s1 :=
      if s.base < b then shift_map_left s (u32 (b - s.base))
      else shift_map_right s (u32 (s.base - b))
    { s1 with base := b, range_max := b + (NBITS - 1) }

/-- Public operations other than `bitmap_set`, for invariant claims about
operation sequences. -/
inductive BOp where
  | addItem (x : Nat)
  | hardBase (b : Nat)
  | update (b : Nat)

/-- Apply one public operation. -/
def applyOp (s : BitmapRange) : BOp → BitmapRange
  | .addItem x => (add s x).2
  | .hardBase b => setBase s b
  | .update b => base_update s b

/-- Run a sequence of public operations from a freshly constructed range. -/
def runOps (b0 : Nat) (ops : List BOp) : BitmapRange :=
  ops.foldl applyOp (bitmapRange b0)

/-- Reference word-level left shift.  Modelled from the spec: the
bit-level shift specification of §4.1 for a left shift by `s = 32·w + r`
bits. -/
def spec_shift_left (ws : Fin NITEMS → Nat) (n : Nat) : Fin NITEMS → Nat :=
  let w := n / 32
  let r := n % 32
  if r = 0 then
    fun d => if d.val + w < NITEMS then wordOf ws (d.val + w) else 0
  else
    fun d =>
      if d.val < NITEMS - w - 1 then
        u32 (wordOf ws (d.val + w) <<< r) ||| wordOf ws (d.val + w + 1) >>> (32 - r)
      else if d.val = NITEMS - w - 1 then
        u32 (wordOf ws (NITEMS - 1) <<< r)
      else 0

/-- Reference word-level right shift.  Modelled from the spec: the
bit-level shift specification of §4.1 for a right shift by `s = 32·w + r`
bits. -/
def spec_shift_right (ws : Fin NITEMS → Nat) (n : Nat) : Fin NITEMS → Nat :=
  let w := n / 32
  let r := n % 32
  if r = 0 then
    fun d => if w ≤ d.val then wordOf ws (d.val - w) else 0
  else
    fun d =>
      if w + 1 ≤ d.val then
        wordOf ws (d.val - w) >>> r ||| u32 (wordOf ws (d.val - w - 1) <<< (32 - r))
      else if d.val = w then
        wordOf ws 0 >>> r
      else 0

/-! ### Basic facts about words and bits -/

theorem u32_lt (n : Nat) : u32 n < U32 := Nat.mod_lt _ (by decide)

theorem pow2_le {a b : Nat} (h : a ≤ b) : (2 : Nat) ^ a ≤ 2 ^ b :=
  Nat.pow_le_pow_right (by decide) h

theorem wordOf_lt {ws : Fin NITEMS → Nat} (h : WfW ws) (i : Nat) : wordOf ws i < U32 := by
  unfold wordOf
  split
  · exact h _
  · decide

theorem wordOf_val (ws : Fin NITEMS → Nat) (i : Fin NITEMS) : wordOf ws i.val = ws i := by
  unfold wordOf
  rw [dif_pos i.isLt]

theorem wordOf_zero {ws : Fin NITEMS → Nat} (h : ∀ i, ws i = 0) (i : Nat) : wordOf ws i = 0 := by
  unfold wordOf
  split
  · exact h _
  · rfl

theorem bitGet_zero {ws : Fin NITEMS → Nat} (h : ∀ i, ws i = 0) (k : Nat) :
    bitGet ws k = false := by
  unfold bitGet
  rw [wordOf_zero h, Nat.zero_testBit]

theorem testBit_of_ge_32 {w p : Nat} (hw : w < U32) (hp : 32 ≤ p) : w.testBit p = false := by
  refine Nat.testBit_lt_two_pow (lt_of_lt_of_le hw ?_)
  exact pow2_le hp

theorem words_zero_of_bits {ws : Fin NITEMS → Nat} (hwf : WfW ws)
    (h : ∀ k, bitGet ws k = false) (i : Fin NITEMS) : ws i = 0 := by
  apply Nat.eq_of_testBit_eq
  intro p
  rw [Nat.zero_testBit]
  by_cases hp : p < 32
  · have hb := h (32 * i.val + (31 - p))
    unfold bitGet at hb
    have h1 : (32 * i.val + (31 - p)) / 32 = i.val := by omega
    have h2 : (32 * i.val + (31 - p)) % 32 = 31 - p := by omega
    rw [h1, h2, wordOf_val] at hb
    have h3 : 31 - (31 - p) = p := by omega
    rwa [h3] at hb
  · exact testBit_of_ge_32 (hwf i) (by omega)

/-! ### Correctness of the fuelled bit-length and of clz32 -/

theorem bitLen_zero_val (fuel : Nat) : bitLen fuel 0 = 0 := by
  cases fuel <;> simp [bitLen]

theorem bitLen_bounds (fuel : Nat) : ∀ v, v < 2 ^ fuel → v ≠ 0 →
    0 < bitLen fuel v ∧ bitLen fuel v ≤ fuel ∧
      2 ^ (bitLen fuel v - 1) ≤ v ∧ v < 2 ^ bitLen fuel v := by
  induction fuel with
  | zero =>
    intro v hv h0
    simp at hv
    omega
  | succ f ih =>
    intro v hv h0
    have hstep : bitLen (f + 1) v = bitLen f (v / 2) + 1 := by simp [bitLen, h0]
    by_cases h1 : v / 2 = 0
    · have hv1 : v = 1 := by omega
      subst hv1
      rw [hstep, h1, bitLen_zero_val]
      simp
    · have hv2 : v / 2 < 2 ^ f := by
        have hp : 2 ^ (f + 1) = 2 ^ f * 2 := Nat.pow_succ ..
        omega
      obtain ⟨p1, p2, p3, p4⟩ := ih (v / 2) hv2 h1
      rw [hstep]
      have hsplit : 2 ^ bitLen f (v / 2) = 2 * 2 ^ (bitLen f (v / 2) - 1) := by
        cases hb : bitLen f (v / 2) with
        | zero => omega
        | succ a => rw [Nat.succ_sub_one, Nat.pow_succ, Nat.mul_comm]
      have hsplit2 : 2 ^ (bitLen f (v / 2) + 1) = 2 * 2 ^ bitLen f (v / 2) := by
        rw [Nat.pow_succ]; exact Nat.mul_comm ..
      simp only [Nat.add_sub_cancel]
      refine ⟨by omega, by omega, by omega, by omega⟩

theorem clz32_bounds {v : Nat} (h0 : v ≠ 0) (hv : v < U32) :
    clz32 v ≤ 31 ∧ 31 - clz32 v = bitLen 32 v - 1 := by
  obtain ⟨p1, p2, _, _⟩ := bitLen_bounds 32 v hv h0
  unfold clz32
  omega

theorem testBit_msb {v : Nat} (h0 : v ≠ 0) (hv : v < U32) :
    v.testBit (bitLen 32 v - 1) = true := by
  obtain ⟨p1, _, p3, p4⟩ := bitLen_bounds 32 v hv h0
  have hL : bitLen 32 v = (bitLen 32 v - 1) + 1 := by omega
  rw [hL, Nat.pow_succ] at p4
  have hdiv : v / 2 ^ (bitLen 32 v - 1) = 1 := by
    have hpos : 0 < 2 ^ (bitLen 32 v - 1) := Nat.two_pow_pos _
    have hlow : 1 ≤ v / 2 ^ (bitLen 32 v - 1) := (Nat.one_le_div_iff hpos).mpr p3
    have hhigh : v / 2 ^ (bitLen 32 v - 1) < 2 := (Nat.div_lt_iff_lt_mul hpos).mpr (by omega)
    omega
  rw [Nat.testBit_to_div_mod, hdiv]
  decide

theorem testBit_above_msb {v i : Nat} (h0 : v ≠ 0) (hv : v < U32)
    (hi : bitLen 32 v - 1 < i) : v.testBit i = false := by
  obtain ⟨p1, _, _, p4⟩ := bitLen_bounds 32 v hv h0
  refine Nat.testBit_lt_two_pow (lt_of_lt_of_le p4 ?_)
  exact pow2_le (by omega)

theorem and_clear_msb {v : Nat} (h0 : v ≠ 0) (hv : v < U32) :
    v &&& ((U32 - 1) ^^^ (1 <<< (bitLen 32 v - 1))) = v % 2 ^ (bitLen 32 v - 1) := by
  obtain ⟨p1, p2, p3, p4⟩ := bitLen_bounds 32 v hv h0
  apply Nat.eq_of_testBit_eq
  intro i
  have h2L : (1 : Nat) <<< (bitLen 32 v - 1) = 2 ^ (bitLen 32 v - 1) := by
    rw [Nat.shiftLeft_eq, Nat.one_mul]
  have hU : (U32 - 1 : Nat) = 2 ^ 32 - 1 := by decide
  rw [Nat.testBit_and, Nat.testBit_xor, Nat.testBit_mod_two_pow, h2L, hU,
    Nat.testBit_two_pow_sub_one, Nat.testBit_two_pow]
  rcases lt_trichotomy i (bitLen 32 v - 1) with hlt | heq | hgt
  · have hne : bitLen 32 v - 1 ≠ i := by omega
    have hi32 : i < 32 := by omega
    simp [hlt, hne, hi32]
  · rw [heq]
    have h32 : bitLen 32 v - 1 < 32 := by omega
    simp [h32, Nat.lt_irrefl]
  · have hfalse : v.testBit i = false := testBit_above_msb h0 hv hgt
    simp [hfalse, show ¬ i < bitLen 32 v - 1 by omega]

theorem mod_msb_lt {v : Nat} (h0 : v ≠ 0) (hv : v < U32) :
    v % 2 ^ (bitLen 32 v - 1) = v - 2 ^ (bitLen 32 v - 1) ∧
      v % 2 ^ (bitLen 32 v - 1) < v := by
  obtain ⟨p1, _, p3, p4⟩ := bitLen_bounds 32 v hv h0
  have hL : bitLen 32 v = (bitLen 32 v - 1) + 1 := by omega
  rw [hL, Nat.pow_succ] at p4
  have heq : v % 2 ^ (bitLen 32 v - 1) = v - 2 ^ (bitLen 32 v - 1) := by
    rw [Nat.mod_eq_sub_mod p3, Nat.mod_eq_of_lt (by omega)]
  have hpos : 0 < 2 ^ (bitLen 32 v - 1) := Nat.two_pow_pos _
  exact ⟨heq, by omega⟩

/-! ### Characterisation of the inner while loop of for_each -/

theorem whileBits_zero (fuel origin : Nat) : whileBits fuel origin 0 = [] := by
  cases fuel <;> simp [whileBits]

theorem whileBits_spec (m : Nat) : ∀ fuel origin v, v < 2 ^ m → m ≤ fuel → v < U32 →
    (∀ x, x ∈ whileBits fuel origin v ↔
      ∃ o, o < 32 ∧ v.testBit (31 - o) = true ∧ x = origin + o) ∧
    (whileBits fuel origin v).Pairwise (· < ·) := by
  induction m with
  | zero =>
    intro fuel origin v hv _ _
    have hv0 : v = 0 := by simpa using hv
    subst hv0
    rw [whileBits_zero]
    constructor
    · intro x
      simp
    · simp
  | succ m ih =>
    intro fuel origin v hv hf hu
    by_cases h0 : v = 0
    · subst h0
      rw [whileBits_zero]
      constructor
      · intro x
        simp
      · simp
    · cases fuel with
      | zero => omega
      | succ f =>
        have hL31 : bitLen 32 v - 1 ≤ 31 := by
          obtain ⟨_, p2, _, _⟩ := bitLen_bounds 32 v hu h0
          omega
        obtain ⟨hclz31, hclzL⟩ := clz32_bounds h0 hu
        have hbitL : v.testBit (bitLen 32 v - 1) = true := testBit_msb h0 hu
        have hstep : whileBits (f + 1) origin v =
            (origin + clz32 v) ::
              whileBits f origin (v &&& ((U32 - 1) ^^^ (1 <<< (31 - clz32 v)))) := by
          simp [whileBits, h0]
        have hmask : v &&& ((U32 - 1) ^^^ (1 <<< (31 - clz32 v))) =
            v % 2 ^ (bitLen 32 v - 1) := by
          rw [hclzL]
          exact and_clear_msb h0 hu
        obtain ⟨hmod_eq, hmod_lt⟩ := mod_msb_lt h0 hu
        have hLm : bitLen 32 v - 1 ≤ m := by
          obtain ⟨p1, _, p3, _⟩ := bitLen_bounds 32 v hu h0
          by_contra hc
          have : 2 ^ (m + 1) ≤ 2 ^ (bitLen 32 v - 1) :=
            pow2_le (by omega)
          omega
        have hv'm : v % 2 ^ (bitLen 32 v - 1) < 2 ^ m := by
          have h1 : v % 2 ^ (bitLen 32 v - 1) < 2 ^ (bitLen 32 v - 1) :=
            Nat.mod_lt _ (Nat.two_pow_pos _)
          exact lt_of_lt_of_le h1 (pow2_le hLm)
        have hv'u : v % 2 ^ (bitLen 32 v - 1) < U32 := by omega
        obtain ⟨ihmem, ihpw⟩ := ih f origin _ hv'm (by omega) hv'u
        have hbit' : ∀ j, (v % 2 ^ (bitLen 32 v - 1)).testBit j =
            (decide (j < bitLen 32 v - 1) && v.testBit j) := by
          intro j
          rw [Nat.testBit_mod_two_pow]
        rw [hstep, hmask]
        constructor
        · intro x
          rw [List.mem_cons, ihmem]
          constructor
          · rintro (rfl | ⟨o, ho, hb, rfl⟩)
            · refine ⟨clz32 v, by omega, ?_, rfl⟩
              rw [hclzL]
              exact hbitL
            · refine ⟨o, ho, ?_, rfl⟩
              rw [hbit'] at hb
              exact (Bool.and_eq_true_iff.mp hb).2
          · rintro ⟨o, ho, hb, rfl⟩
            by_cases hoL : o = clz32 v
            · subst hoL
              exact Or.inl rfl
            · refine Or.inr ⟨o, ho, ?_, rfl⟩
              rw [hbit']
              have hole : 31 - o ≤ bitLen 32 v - 1 := by
                by_contra hc
                rw [testBit_above_msb h0 hu (by omega)] at hb
                exact absurd hb (by simp)
              have holt : 31 - o < bitLen 32 v - 1 := by omega
              simp [holt, hb]
        · refine List.Pairwise.cons ?_ ihpw
          intro y hy
          obtain ⟨o, ho, hb, rfl⟩ := (ihmem y).mp hy
          rw [hbit'] at hb
          have h1 : 31 - o < bitLen 32 v - 1 := by
            have := (Bool.and_eq_true_iff.mp hb).1
            simpa using this
          omega

/-! ### Characterisation of for_each -/

theorem wordOf_ge (ws : Fin NITEMS → Nat) {i : Nat} (h : NITEMS ≤ i) : wordOf ws i = 0 := by
  unfold wordOf
  rw [dif_neg (by omega)]

theorem U32_eq : U32 = 2 ^ 32 := by decide

theorem mem_for_each {s : BitmapRange} (hwf : WfW s.bitmap) (x : Nat) :
    x ∈ for_each s ↔
      ∃ k, k < 32 * ((s.num_bits + 31) / 32) ∧ bitGet s.bitmap k = true ∧
        x = s.base + k := by
  unfold for_each
  rw [List.mem_flatMap]
  constructor
  · rintro ⟨i, hi, hx⟩
    rw [List.mem_range] at hi
    have hw : wordOf s.bitmap i < U32 := wordOf_lt hwf i
    obtain ⟨hmem, _⟩ := whileBits_spec 32 33 (s.base + 32 * i) _ (U32_eq ▸ hw) (by omega) hw
    obtain ⟨o, ho, hb, rfl⟩ := (hmem x).mp hx
    refine ⟨32 * i + o, by omega, ?_, by omega⟩
    unfold bitGet
    have h1 : (32 * i + o) / 32 = i := by omega
    have h2 : (32 * i + o) % 32 = o := by omega
    rw [h1, h2]
    exact hb
  · rintro ⟨k, hk, hb, rfl⟩
    refine ⟨k / 32, by rw [List.mem_range]; omega, ?_⟩
    have hw : wordOf s.bitmap (k / 32) < U32 := wordOf_lt hwf _
    obtain ⟨hmem, _⟩ :=
      whileBits_spec 32 33 (s.base + 32 * (k / 32)) _ (U32_eq ▸ hw) (by omega) hw
    rw [hmem]
    refine ⟨k % 32, by omega, ?_, by omega⟩
    unfold bitGet at hb
    exact hb

theorem pairwise_flat {s : BitmapRange} (hwf : WfW s.bitmap) (n : Nat) :
    ((List.range n).flatMap fun i =>
      whileBits 33 (s.base + 32 * i) (wordOf s.bitmap i)).Pairwise (· < ·) := by
  induction n with
  | zero => simp
  | succ n ihn =>
    rw [List.range_succ, List.flatMap_append, List.pairwise_append]
    refine ⟨ihn, ?_, ?_⟩
    · simp only [List.flatMap_cons, List.flatMap_nil, List.append_nil]
      exact (whileBits_spec 32 33 (s.base + 32 * n) _
        (U32_eq ▸ wordOf_lt hwf n) (by omega) (wordOf_lt hwf n)).2
    · intro a ha b hb
      rw [List.mem_flatMap] at ha
      obtain ⟨i, hi, hax⟩ := ha
      rw [List.mem_range] at hi
      obtain ⟨hmemi, _⟩ := whileBits_spec 32 33 (s.base + 32 * i) _
        (U32_eq ▸ wordOf_lt hwf i) (by omega) (wordOf_lt hwf i)
      obtain ⟨o, ho, _, rfl⟩ := (hmemi a).mp hax
      simp only [List.flatMap_cons, List.flatMap_nil, List.append_nil] at hb
      obtain ⟨hmemn, _⟩ := whileBits_spec 32 33 (s.base + 32 * n) _
        (U32_eq ▸ wordOf_lt hwf n) (by omega) (wordOf_lt hwf n)
      obtain ⟨o2, ho2, _, rfl⟩ := (hmemn b).mp hb
      omega

theorem pairwise_for_each {s : BitmapRange} (hwf : WfW s.bitmap) :
    (for_each s).Pairwise (· < ·) :=
  pairwise_flat hwf ((s.num_bits + 31) / 32)

theorem nodup_for_each {s : BitmapRange} (hwf : WfW s.bitmap) :
    (for_each s).Nodup :=
  (pairwise_for_each hwf).imp Nat.ne_of_lt

theorem perm_of_mem_iff {l1 l2 : List Nat} (h1 : l1.Nodup) (h2 : l2.Nodup)
    (h : ∀ a, a ∈ l1 ↔ a ∈ l2) : l1.Perm l2 := by
  rw [List.perm_iff_count]
  intro a
  by_cases ha : a ∈ l1
  · rw [List.count_eq_one_of_mem h1 ha, List.count_eq_one_of_mem h2 ((h a).mp ha)]
  · rw [List.count_eq_zero_of_not_mem ha,
      List.count_eq_zero_of_not_mem (fun hc => ha ((h a).mpr hc))]

/-! ### Word-index arithmetic bridges -/

theorem shiftRight5 (n : Nat) : n >>> 5 = n / 32 := by
  rw [Nat.shiftRight_eq_div_pow]

theorem and31 (n : Nat) : n &&& 31 = n % 32 := by
  simpa using Nat.and_pow_two_sub_one_eq_mod n 5

theorem lor_lt_U32 {a b : Nat} (ha : a < U32) (hb : b < U32) : a ||| b < U32 := by
  rw [U32_eq] at ha hb ⊢
  apply Nat.lt_pow_two_of_testBit
  intro i hi
  rw [Nat.testBit_or,
    Nat.testBit_lt_two_pow (lt_of_lt_of_le ha (pow2_le hi)),
    Nat.testBit_lt_two_pow (lt_of_lt_of_le hb (pow2_le hi))]
  rfl

theorem shiftRight_lt_U32 {a : Nat} (ha : a < U32) (r : Nat) : a >>> r < U32 := by
  rw [Nat.shiftRight_eq_div_pow]
  exact lt_of_le_of_lt (Nat.div_le_self ..) ha

/-! ### Pointwise values of the word shifts -/

theorem shift_words_left_apply (ws : Fin NITEMS → Nat) (n : Nat) (d : Fin NITEMS) :
    shift_words_left ws n d =
      if n % 32 = 0 then
        if d.val + n / 32 < 8 then wordOf ws (d.val + n / 32) else 0
      else if d.val + n / 32 < 7 then
        u32 (wordOf ws (d.val + n / 32) <<< (n % 32)) |||
          wordOf ws (d.val + n / 32 + 1) >>> (32 - n % 32)
      else if d.val + n / 32 = 7 then
        u32 (wordOf ws 7 <<< (n % 32))
      else 0 := by
  by_cases h : n % 32 = 0 <;>
    simp [shift_words_left, shiftRight5, and31, h]

theorem shift_words_right_apply (ws : Fin NITEMS → Nat) (n : Nat) (d : Fin NITEMS) :
    shift_words_right ws n d =
      if n % 32 = 0 then
        if n / 32 ≤ d.val then wordOf ws (d.val - n / 32) else 0
      else if n / 32 + 1 ≤ d.val then
        wordOf ws (d.val - n / 32) >>> (n % 32) |||
          u32 (wordOf ws (d.val - n / 32 - 1) <<< (32 - n % 32))
      else if d.val = n / 32 then
        wordOf ws 0 >>> (n % 32)
      else 0 := by
  by_cases h : n % 32 = 0 <;>
    simp [shift_words_right, shiftRight5, and31, h]

theorem wf_shift_words_left {ws : Fin NITEMS → Nat} (hwf : WfW ws) (n : Nat) :
    WfW (shift_words_left ws n) := by
  intro d
  rw [shift_words_left_apply]
  split
  · split
    · exact wordOf_lt hwf _
    · decide
  · split
    · exact lor_lt_U32 (u32_lt _) (shiftRight_lt_U32 (wordOf_lt hwf _) _)
    · split
      · exact u32_lt _
      · decide

theorem wf_shift_words_right {ws : Fin NITEMS → Nat} (hwf : WfW ws) (n : Nat) :
    WfW (shift_words_right ws n) := by
  intro d
  rw [shift_words_right_apply]
  split
  · split
    · exact wordOf_lt hwf _
    · decide
  · split
    · exact lor_lt_U32 (shiftRight_lt_U32 (wordOf_lt hwf _) _) (u32_lt _)
    · split
      · exact shiftRight_lt_U32 (wordOf_lt hwf _) _
      · decide

/-! ### Bit-level semantics of the word shifts -/

theorem bitGet_shift_words_left {ws : Fin NITEMS → Nat} (hwf : WfW ws) (n k : Nat) :
    bitGet (shift_words_left ws n) k = bitGet ws (k + n) := by
  unfold bitGet
  have hni : NITEMS = 8 := rfl
  by_cases hk : k / 32 < NITEMS
  · rw [show wordOf (shift_words_left ws n) (k / 32) =
        shift_words_left ws n ⟨k / 32, hk⟩ from (wordOf_val _ ⟨k / 32, hk⟩).symm ▸ rfl]
    rw [shift_words_left_apply]
    have hj : k % 32 < 32 := Nat.mod_lt _ (by decide)
    have hr32 : n % 32 < 32 := Nat.mod_lt _ (by decide)
    by_cases hr : n % 32 = 0
    · rw [if_pos hr]
      by_cases hlt : k / 32 + n / 32 < 8
      · rw [if_pos hlt]
        have e1 : (k + n) / 32 = k / 32 + n / 32 := by omega
        have e2 : (k + n) % 32 = k % 32 := by omega
        rw [e1, e2]
      · rw [if_neg hlt, wordOf_ge ws (show NITEMS ≤ (k + n) / 32 by omega),
          Nat.zero_testBit, Nat.zero_testBit]
    · rw [if_neg hr]
      by_cases h1 : k / 32 + n / 32 < 7
      · rw [if_pos h1]
        unfold u32
        rw [U32_eq]
        simp only [Nat.testBit_or, Nat.testBit_mod_two_pow, Nat.testBit_shiftLeft,
          Nat.testBit_shiftRight]
        by_cases hjr : k % 32 + n % 32 < 32
        · have e1 : (k + n) / 32 = k / 32 + n / 32 := by omega
          have e2 : 31 - k % 32 - n % 32 = 31 - (k + n) % 32 := by omega
          have e3 : (wordOf ws (k / 32 + n / 32 + 1)).testBit
              (32 - n % 32 + (31 - k % 32)) = false :=
            testBit_of_ge_32 (wordOf_lt hwf _) (by omega)
          rw [e1, e3, e2]
          simp [show 31 - k % 32 < 32 by omega, show n % 32 ≤ 31 - k % 32 by omega]
        · have e1 : (k + n) / 32 = k / 32 + n / 32 + 1 := by omega
          have e2 : 32 - n % 32 + (31 - k % 32) = 31 - (k + n) % 32 := by omega
          rw [e1, e2]
          simp [show ¬ (n % 32 ≤ 31 - k % 32) by omega]
      · rw [if_neg h1]
        by_cases h2 : k / 32 + n / 32 = 7
        · rw [if_pos h2]
          unfold u32
          rw [U32_eq]
          simp only [Nat.testBit_mod_two_pow, Nat.testBit_shiftLeft]
          by_cases hjr : k % 32 + n % 32 < 32
          · have e1 : (k + n) / 32 = 7 := by omega
            have e2 : 31 - k % 32 - n % 32 = 31 - (k + n) % 32 := by omega
            rw [e1, e2]
            simp [show 31 - k % 32 < 32 by omega, show n % 32 ≤ 31 - k % 32 by omega]
          · rw [wordOf_ge ws (show NITEMS ≤ (k + n) / 32 by omega), Nat.zero_testBit]
            simp [show ¬ (n % 32 ≤ 31 - k % 32) by omega]
        · rw [if_neg h2, wordOf_ge ws (show NITEMS ≤ (k + n) / 32 by omega),
            Nat.zero_testBit, Nat.zero_testBit]
  · rw [wordOf_ge _ (by omega), wordOf_ge ws (show NITEMS ≤ (k + n) / 32 by omega),
      Nat.zero_testBit, Nat.zero_testBit]

theorem bitGet_shift_words_right {ws : Fin NITEMS → Nat} (hwf : WfW ws) (n k : Nat) :
    bitGet (shift_words_right ws n) k =
      if n ≤ k ∧ k < NBITS then bitGet ws (k - n) else false := by
  unfold bitGet
  have hni : NITEMS = 8 := rfl
  have hnb : NBITS = 256 := rfl
  by_cases hk : k / 32 < NITEMS
  · rw [show wordOf (shift_words_right ws n) (k / 32) =
        shift_words_right ws n ⟨k / 32, hk⟩ from (wordOf_val _ ⟨k / 32, hk⟩).symm ▸ rfl]
    rw [shift_words_right_apply]
    have hj : k % 32 < 32 := Nat.mod_lt _ (by decide)
    have hr32 : n % 32 < 32 := Nat.mod_lt _ (by decide)
    by_cases hr : n % 32 = 0
    · rw [if_pos hr]
      by_cases hle : n / 32 ≤ k / 32
      · rw [if_pos hle, if_pos (by constructor <;> omega)]
        have e1 : (k - n) / 32 = k / 32 - n / 32 := by omega
        have e2 : (k - n) % 32 = k % 32 := by omega
        rw [e1, e2]
      · rw [if_neg hle, if_neg (by omega), Nat.zero_testBit]
    · rw [if_neg hr]
      by_cases h1 : n / 32 + 1 ≤ k / 32
      · rw [if_pos h1]
        unfold u32
        rw [U32_eq]
        simp only [Nat.testBit_or, Nat.testBit_mod_two_pow, Nat.testBit_shiftLeft,
          Nat.testBit_shiftRight]
        rw [if_pos (show n ≤ k ∧ k < NBITS by constructor <;> omega)]
        by_cases hjr : n % 32 ≤ k % 32
        · have e1 : (k - n) / 32 = k / 32 - n / 32 := by omega
          have e2 : n % 32 + (31 - k % 32) = 31 - (k - n) % 32 := by omega
          have e3 : (wordOf ws (k / 32 - n / 32 - 1)).testBit (31 - k % 32 - (32 - n % 32)) =
              false ∨ ¬ (32 - n % 32 ≤ 31 - k % 32) := Or.inr (by omega)
          rw [e1, e2]
          simp [show ¬ (32 - n % 32 ≤ 31 - k % 32) by omega]
        · have e1 : (k - n) / 32 = k / 32 - n / 32 - 1 := by omega
          have e2 : 31 - k % 32 - (32 - n % 32) = 31 - (k - n) % 32 := by omega
          have e3 : (wordOf ws (k / 32 - n / 32)).testBit (n % 32 + (31 - k % 32)) = false :=
            testBit_of_ge_32 (wordOf_lt hwf _) (by omega)
          rw [e1, e2, e3]
          simp [show 31 - k % 32 < 32 by omega, show 32 - n % 32 ≤ 31 - k % 32 by omega]
      · rw [if_neg h1]
        by_cases h2 : k / 32 = n / 32
        · rw [if_pos h2]
          simp only [Nat.testBit_shiftRight]
          by_cases hjr : n % 32 ≤ k % 32
          · rw [if_pos (show n ≤ k ∧ k < NBITS by constructor <;> omega)]
            have e1 : (k - n) / 32 = 0 := by omega
            have e2 : n % 32 + (31 - k % 32) = 31 - (k - n) % 32 := by omega
            rw [e1, e2]
          · rw [if_neg (by omega),
              testBit_of_ge_32 (wordOf_lt hwf _) (by omega)]
        · rw [if_neg h2, if_neg (by omega), Nat.zero_testBit]
  · rw [wordOf_ge _ (by omega), if_neg (by omega), Nat.zero_testBit]

/-! ### Lowest set bit and the find_new_max scan -/

theorem pred_bits : ∀ v : Nat, 0 < v →
    ∃ t, v.testBit t = true ∧ (∀ i, i < t → v.testBit i = false) ∧
      ∀ i, (v - 1).testBit i =
        if i < t then true else if i = t then false else v.testBit i := by
  intro v
  induction v using Nat.strong_induction_on with
  | _ v ih =>
    intro hv
    by_cases hodd : v % 2 = 1
    · refine ⟨0, ?_, fun i hi => absurd hi (by omega), ?_⟩
      · rw [Nat.testBit_zero]
        simp [hodd]
      · intro i
        cases i with
        | zero =>
          have hev : (v - 1) % 2 = 0 := by omega
          rw [Nat.testBit_zero]
          simp [hev]
        | succ i =>
          rw [Nat.testBit_add_one, Nat.testBit_add_one]
          have hd : (v - 1) / 2 = v / 2 := by omega
          simp [hd]
    · have h2 : 0 < v / 2 := by omega
      have hlt : v / 2 < v := by omega
      obtain ⟨t, ht1, ht2, ht3⟩ := ih (v / 2) hlt h2
      refine ⟨t + 1, ?_, ?_, ?_⟩
      · rw [Nat.testBit_add_one]
        exact ht1
      · intro i hi
        cases i with
        | zero =>
          have hev : v % 2 = 0 := by omega
          rw [Nat.testBit_zero]
          simp [hev]
        | succ i =>
          rw [Nat.testBit_add_one]
          exact ht2 i (by omega)
      · intro i
        cases i with
        | zero =>
          have ho : (v - 1) % 2 = 1 := by omega
          rw [Nat.testBit_zero]
          simp [ho]
        | succ i =>
          rw [Nat.testBit_add_one, Nat.testBit_add_one]
          have hd : (v - 1) / 2 = v / 2 - 1 := by omega
          rw [hd, ht3 i]
          by_cases hc1 : i < t
          · simp [hc1, show i + 1 < t + 1 by omega]
          · by_cases hc2 : i = t
            · simp [hc1, hc2]
            · simp [hc1, hc2, show ¬ i + 1 < t + 1 by omega, show ¬ i + 1 = t + 1 by omega]

theorem and_lowest_bit {v : Nat} (hv0 : 0 < v) (hv : v < U32) :
    ∃ t, t < 32 ∧ v &&& ((U32 - 1) ^^^ (v - 1)) = 2 ^ t ∧ v.testBit t = true ∧
      ∀ i, i < t → v.testBit i = false := by
  obtain ⟨t, ht1, ht2, ht3⟩ := pred_bits v hv0
  have ht32 : t < 32 := by
    by_contra hc
    rw [testBit_of_ge_32 hv (by omega)] at ht1
    exact absurd ht1 (by simp)
  refine ⟨t, ht32, ?_, ht1, ht2⟩
  apply Nat.eq_of_testBit_eq
  intro i
  rw [Nat.testBit_and, Nat.testBit_xor, ht3 i,
    show (U32 - 1 : Nat) = 2 ^ 32 - 1 by decide, Nat.testBit_two_pow_sub_one,
    Nat.testBit_two_pow]
  rcases lt_trichotomy i t with h | h | h
  · simp [ht2 i h, h, show t ≠ i by omega]
  · subst h
    simp [ht1, show i < 32 by omega, Nat.lt_irrefl]
  · by_cases hi32 : i < 32
    · simp [show ¬ i < t by omega, show i ≠ t by omega, show t ≠ i by omega, hi32]
    · rw [testBit_of_ge_32 hv (by omega)]
      simp [show ¬ i < t by omega, show t ≠ i by omega, hi32]

theorem bitLen_two_pow {t : Nat} (ht : t < 32) : bitLen 32 (2 ^ t) = t + 1 := by
  have hp : (2 : Nat) ^ t < 2 ^ 32 := (Nat.pow_lt_pow_iff_right (by decide)).mpr ht
  obtain ⟨p1, p2, p3, p4⟩ := bitLen_bounds 32 (2 ^ t) hp (Nat.two_pow_pos t).ne'
  have h1 : bitLen 32 (2 ^ t) - 1 ≤ t := (Nat.pow_le_pow_iff_right (by decide)).mp p3
  have h2 : t < bitLen 32 (2 ^ t) := (Nat.pow_lt_pow_iff_right (by decide)).mp p4
  omega

theorem clz32_two_pow {t : Nat} (ht : t < 32) : clz32 (2 ^ t) = 31 - t := by
  unfold clz32
  rw [bitLen_two_pow ht]
  omega

theorem scan_max_spec {ws : Fin NITEMS → Nat} (hwf : WfW ws) (stop : Nat) :
    ∀ j, j ≤ NITEMS → (∀ i, j ≤ i → wordOf ws i = 0) →
      (∀ i, i < stop → wordOf ws i = 0) →
      (∀ k, scan_max ws stop j ≤ k → bitGet ws k = false) ∧
      (scan_max ws stop j = 0 ∨ bitGet ws (scan_max ws stop j - 1) = true) ∧
      scan_max ws stop j ≤ 32 * j := by
  intro j
  induction j with
  | zero =>
    intro _ hz _
    refine ⟨?_, Or.inl rfl, by simp [scan_max]⟩
    intro k _
    unfold bitGet
    rw [hz _ (Nat.zero_le _), Nat.zero_testBit]
  | succ j ihj =>
    intro hj8 hhole hlow
    by_cases hstop : j + 1 ≤ stop
    · have hall : ∀ i, wordOf ws i = 0 := by
        intro i
        by_cases hi : i ≤ j
        · exact hlow i (by omega)
        · exact hhole i (by omega)
      rw [show scan_max ws stop (j + 1) = 0 from by simp [scan_max, hstop]]
      refine ⟨?_, Or.inl rfl, by omega⟩
      intro k _
      unfold bitGet
      rw [hall, Nat.zero_testBit]
    · by_cases hbits : wordOf ws j = 0
      · have hstep : scan_max ws stop (j + 1) = scan_max ws stop j := by
          simp [scan_max, hstop, hbits]
        have hhole2 : ∀ i, j ≤ i → wordOf ws i = 0 := by
          intro i hi
          by_cases hij : i = j
          · subst hij
            exact hbits
          · exact hhole i (by omega)
        obtain ⟨c1, c2, c3⟩ := ihj (by omega) hhole2 hlow
        rw [hstep]
        exact ⟨c1, c2, by omega⟩
      · have hwlt : wordOf ws j < U32 := wordOf_lt hwf j
        obtain ⟨t, ht32, htv, htb, htlow⟩ :=
          and_lowest_bit (Nat.pos_of_ne_zero hbits) hwlt
        have hstep : scan_max ws stop (j + 1) =
            (j <<< 5) + (clz32 (wordOf ws j &&& ((U32 - 1) ^^^ (wordOf ws j - 1))) + 1) := by
          simp [scan_max, hstop, hbits]
        have hsh : (j <<< 5) = 32 * j := by
          rw [Nat.shiftLeft_eq]
          omega
        rw [hstep, htv, clz32_two_pow ht32, hsh]
        have hni : NITEMS = 8 := rfl
        refine ⟨?_, Or.inr ?_, by omega⟩
        · intro k hk
          unfold bitGet
          by_cases hkj : k / 32 ≤ j
          · have hkd : k / 32 = j := by omega
            rw [hkd]
            apply htlow
            omega
          · rw [hhole _ (by omega), Nat.zero_testBit]
        · unfold bitGet
          have e1 : (32 * j + (31 - t + 1) - 1) / 32 = j := by omega
          have e2 : 31 - (32 * j + (31 - t + 1) - 1) % 32 = t := by omega
          rw [e1, e2]
          exact htb

/-! ### Shifting an all-zero array -/

theorem shift_words_right_zero {ws : Fin NITEMS → Nat} (h : ∀ i, ws i = 0) (n : Nat)
    (d : Fin NITEMS) : shift_words_right ws n d = 0 := by
  rw [shift_words_right_apply]
  have hz : ∀ i, wordOf ws i = 0 := wordOf_zero h
  split
  · split
    · rw [hz]
    · rfl
  · split
    · rw [hz, hz]
      simp [u32]
    · split
      · rw [hz]
        simp
      · rfl

theorem zeroW_lt : WfW zeroW := by
  intro i
  show (0 : Nat) < U32
  decide

theorem zeroW_eq (i : Fin NITEMS) : zeroW i = 0 := rfl

theorem shift_words_left_zero {ws : Fin NITEMS → Nat} (h : ∀ i, ws i = 0) (n : Nat)
    (d : Fin NITEMS) : shift_words_left ws n d = 0 := by
  rw [shift_words_left_apply]
  have hz : ∀ i, wordOf ws i = 0 := wordOf_zero h
  split
  · split
    · rw [hz]
    · rfl
  · split
    · rw [hz, hz]
      simp [u32]
    · split
      · rw [hz]
        simp [u32]
      · rfl

/-! ### Effect of add on the state -/

theorem add_effect {s : BitmapRange} (hrm : s.range_max = s.base + 255) {x : Nat}
    (hin : s.base ≤ x ∧ x ≤ s.base + 255) :
    (add s x).1 = true ∧
    (add s x).2.base = s.base ∧ (add s x).2.range_max = s.range_max ∧
    (add s x).2.num_bits = max (x - s.base + 1) s.num_bits ∧
    ∀ k, bitGet (add s x).2.bitmap k =
      (bitGet s.bitmap k || decide (k = x - s.base)) := by
  have hcond : s.base ≤ x ∧ x ≤ s.range_max := ⟨hin.1, by omega⟩
  have hu32 : U32 = 4294967296 := rfl
  have hd : u32 (x - s.base) = x - s.base := by
    unfold u32
    rw [Nat.mod_eq_of_lt (by omega)]
  unfold add
  rw [if_pos hcond]
  refine ⟨rfl, rfl, rfl, by simp [hd], ?_⟩
  intro k
  simp only [hd, shiftRight5, and31]
  unfold bitGet
  have hdlt : x - s.base < 256 := by omega
  by_cases hk8 : k / 32 < NITEMS
  · rw [show wordOf (fun j : Fin NITEMS =>
        if j.val = (x - s.base) / 32 then s.bitmap j ||| 1 <<< (31 - (x - s.base) % 32)
        else s.bitmap j) (k / 32) = (if (⟨k / 32, hk8⟩ : Fin NITEMS).val = (x - s.base) / 32
          then s.bitmap ⟨k / 32, hk8⟩ ||| 1 <<< (31 - (x - s.base) % 32)
          else s.bitmap ⟨k / 32, hk8⟩) from wordOf_val _ ⟨k / 32, hk8⟩]
    have hwv : s.bitmap ⟨k / 32, hk8⟩ = wordOf s.bitmap (k / 32) :=
      (wordOf_val s.bitmap ⟨k / 32, hk8⟩).symm
    by_cases hdiv : k / 32 = (x - s.base) / 32
    · rw [if_pos hdiv, hwv]
      rw [show (1 : Nat) <<< (31 - (x - s.base) % 32) = 2 ^ (31 - (x - s.base) % 32) from by
        rw [Nat.shiftLeft_eq, Nat.one_mul]]
      rw [Nat.testBit_or, Nat.testBit_two_pow]
      rw [show decide (31 - (x - s.base) % 32 = 31 - k % 32) = decide (k = x - s.base) from
        decide_eq_decide.mpr (by omega)]
    · rw [if_neg hdiv, hwv]
      rw [show decide (k = x - s.base) = false from by
        simp only [decide_eq_false_iff_not]
        omega]
      simp
  · rw [wordOf_ge _ (by omega), wordOf_ge s.bitmap (by omega)]
    have hni : NITEMS = 8 := rfl
    rw [show decide (k = x - s.base) = false from by
      simp only [decide_eq_false_iff_not]
      omega]
    simp

theorem wf_add {s : BitmapRange} (hwf : WfW s.bitmap) (x : Nat) :
    WfW (add s x).2.bitmap := by
  unfold add
  split
  · intro j
    simp only []
    split
    · refine lor_lt_U32 (hwf j) ?_
      rw [Nat.shiftLeft_eq, Nat.one_mul, U32_eq]
      exact (Nat.pow_lt_pow_iff_right (by decide)).mpr (by omega)
    · exact hwf j
  · exact hwf

/-! ### Unfolding equations for the composite methods -/

theorem shift_map_left_eq (s : BitmapRange) (n : Nat) :
    shift_map_left s n =
      if s.num_bits ≤ n then { s with num_bits := 0, bitmap := zeroW }
      else { s with num_bits := s.num_bits - n, bitmap := shift_words_left s.bitmap n } :=
  rfl

theorem shift_map_right_eq (s : BitmapRange) (n : Nat) :
    shift_map_right s n =
      if NBITS ≤ n then { s with num_bits := 0, bitmap := zeroW }
      else
        { s with
          num_bits :=
            if NBITS < s.num_bits + n then
              scan_max (shift_words_right s.bitmap n) (n >>> 5) NITEMS
            else s.num_bits + n,
          bitmap := shift_words_right s.bitmap n } := by
  unfold shift_map_right
  split
  · rfl
  · rfl

theorem base_update_eq (s : BitmapRange) (b : Nat) :
    base_update s b =
      if b = s.base then s
      else if s.base < b then
        { shift_map_left s (u32 (b - s.base)) with
          base := b, range_max := b + (NBITS - 1) }
      else
        { shift_map_right s (u32 (s.base - b)) with
          base := b, range_max := b + (NBITS - 1) } := by
  unfold base_update
  split
  · rfl
  · split <;> rfl

/-! ### The coherence invariant and its preservation -/

/-- Invariant of every state reachable through the constructor, base reset,
add and base_update: cached window bound, clamped watermark, 32-bit words,
and no set bit at or above the watermark. -/
def Inv (s : BitmapRange) : Prop :=
  s.range_max = s.base + (NBITS - 1) ∧ s.num_bits ≤ NBITS ∧ WfW s.bitmap ∧
    ∀ k, s.num_bits ≤ k → bitGet s.bitmap k = false

theorem inv_bitmapRange (b : Nat) : Inv (bitmapRange b) :=
  ⟨rfl, Nat.zero_le _, zeroW_lt, fun k _ => bitGet_zero (fun _ => rfl) k⟩

theorem inv_setBase (s : BitmapRange) (b : Nat) : Inv (setBase s b) :=
  ⟨rfl, Nat.zero_le _, zeroW_lt, fun k _ => bitGet_zero (fun _ => rfl) k⟩

theorem inv_add {s : BitmapRange} (hs : Inv s) (x : Nat) : Inv (add s x).2 := by
  obtain ⟨h1, h2, h3, h4⟩ := hs
  have hnb : NBITS = 256 := rfl
  by_cases hin : s.base ≤ x ∧ x ≤ s.base + 255
  · obtain ⟨_, e1, e2, e3, e4⟩ := add_effect (by omega) hin
    refine ⟨by rw [e2, e1]; exact h1, ?_, wf_add h3 x, ?_⟩
    · rw [e3]
      omega
    · intro k hk
      rw [e4]
      rw [e3] at hk
      rw [h4 k (by omega)]
      simp only [Bool.false_or, decide_eq_false_iff_not]
      omega
  · have hnb : NBITS = 256 := rfl
    have hout : (add s x).2 = s := by
      unfold add
      rw [if_neg (by omega)]
    rw [hout]
    exact ⟨h1, h2, h3, h4⟩

theorem inv_shift_map_left {s : BitmapRange} (hwf : WfW s.bitmap)
    (hnum : s.num_bits ≤ NBITS)
    (hclean : ∀ k, s.num_bits ≤ k → bitGet s.bitmap k = false) (n : Nat) :
    WfW (shift_map_left s n).bitmap ∧ (shift_map_left s n).num_bits ≤ NBITS ∧
      (∀ k, (shift_map_left s n).num_bits ≤ k →
        bitGet (shift_map_left s n).bitmap k = false) ∧
      (shift_map_left s n).base = s.base ∧
      (shift_map_left s n).range_max = s.range_max := by
  rw [shift_map_left_eq]
  split
  · exact ⟨zeroW_lt, Nat.zero_le _, fun k _ => bitGet_zero (fun _ => rfl) k, rfl, rfl⟩
  · rename_i h
    refine ⟨wf_shift_words_left hwf n, by simp only []; omega, ?_, rfl, rfl⟩
    intro k hk
    simp only [] at hk ⊢
    rw [bitGet_shift_words_left hwf]
    exact hclean _ (by omega)

theorem low_words_after_right (s : BitmapRange) (n : Nat) :
    ∀ i, i < n >>> 5 → wordOf (shift_words_right s.bitmap n) i = 0 := by
  intro i hi
  rw [shiftRight5] at hi
  by_cases h8 : i < NITEMS
  · rw [show wordOf (shift_words_right s.bitmap n) i =
      shift_words_right s.bitmap n ⟨i, h8⟩ from wordOf_val _ ⟨i, h8⟩]
    rw [shift_words_right_apply]
    have hv : (⟨i, h8⟩ : Fin NITEMS).val = i := rfl
    split
    · rw [if_neg (by omega)]
    · rw [if_neg (by omega), if_neg (by omega)]
  · exact wordOf_ge _ (by omega)

theorem inv_shift_map_right {s : BitmapRange} (hwf : WfW s.bitmap)
    (_hnum : s.num_bits ≤ NBITS)
    (hclean : ∀ k, s.num_bits ≤ k → bitGet s.bitmap k = false) (n : Nat) :
    WfW (shift_map_right s n).bitmap ∧ (shift_map_right s n).num_bits ≤ NBITS ∧
      (∀ k, (shift_map_right s n).num_bits ≤ k →
        bitGet (shift_map_right s n).bitmap k = false) ∧
      (shift_map_right s n).base = s.base ∧
      (shift_map_right s n).range_max = s.range_max := by
  have hnb : NBITS = 256 := rfl
  have hni : NITEMS = 8 := rfl
  rw [shift_map_right_eq]
  split
  · exact ⟨zeroW_lt, Nat.zero_le _, fun k _ => bitGet_zero (fun _ => rfl) k, rfl, rfl⟩
  · rename_i hn
    have hwf2 := wf_shift_words_right hwf n
    by_cases hov : NBITS < s.num_bits + n
    · obtain ⟨c1, c2, c3⟩ := scan_max_spec hwf2 (n >>> 5) NITEMS (le_refl NITEMS)
        (fun i hi => wordOf_ge _ hi) (low_words_after_right s n)
      refine ⟨hwf2, ?_, ?_, rfl, rfl⟩
      · simp only [if_pos hov]
        omega
      · simp only [if_pos hov]
        intro k hk
        exact c1 k hk
    · refine ⟨hwf2, ?_, ?_, rfl, rfl⟩
      · simp only [if_neg hov]
        omega
      · simp only [if_neg hov]
        intro k hk
        rw [bitGet_shift_words_right hwf]
        split
        · rename_i hc
          exact hclean _ (by omega)
        · rfl

theorem inv_base_update {s : BitmapRange} (hs : Inv s) (b : Nat) :
    Inv (base_update s b) := by
  obtain ⟨h1, h2, h3, h4⟩ := hs
  rw [base_update_eq]
  split
  · exact ⟨h1, h2, h3, h4⟩
  · split
    · obtain ⟨c1, c2, c3, _, _⟩ := inv_shift_map_left h3 h2 h4 (u32 (b - s.base))
      exact ⟨rfl, c2, c1, c3⟩
    · obtain ⟨c1, c2, c3, _, _⟩ := inv_shift_map_right h3 h2 h4 (u32 (s.base - b))
      exact ⟨rfl, c2, c1, c3⟩

theorem inv_applyOp {s : BitmapRange} (hs : Inv s) (op : BOp) : Inv (applyOp s op) := by
  cases op with
  | addItem x => exact inv_add hs x
  | hardBase b => exact inv_setBase s b
  | update b => exact inv_base_update hs b

theorem inv_foldl (ops : List BOp) : ∀ s, Inv s → Inv (ops.foldl applyOp s) := by
  induction ops with
  | nil => intro s hs; exact hs
  | cons op ops ih =>
    intro s hs
    exact ih _ (inv_applyOp hs op)

theorem inv_runOps (b0 : Nat) (ops : List BOp) : Inv (runOps b0 ops) :=
  inv_foldl ops _ (inv_bitmapRange b0)

theorem witness_or_zero {s : BitmapRange} (hwf : WfW s.bitmap)
    (hclean : ∀ k, s.num_bits ≤ k → bitGet s.bitmap k = false) :
    (∀ i, s.bitmap i = 0) ∨ ∃ k, k < s.num_bits ∧ bitGet s.bitmap k = true := by
  by_cases hz : ∀ k, bitGet s.bitmap k = false
  · exact Or.inl (words_zero_of_bits hwf hz)
  · push_neg at hz
    obtain ⟨k, hk⟩ := hz
    have hkt : bitGet s.bitmap k = true := by simpa using hk
    have hlt : k < s.num_bits := by
      by_contra hc
      rw [hclean k (by omega)] at hkt
      exact absurd hkt (by simp)
    exact Or.inr ⟨k, hlt, hkt⟩

/-! ### Congruence and emptiness helpers for for_each -/

theorem flatMap_congr_mem {l : List Nat} {f g : Nat → List Nat}
    (h : ∀ a ∈ l, f a = g a) : l.flatMap f = l.flatMap g := by
  induction l with
  | nil => rfl
  | cons a l ih =>
    simp only [List.flatMap_cons]
    rw [h a (by simp), ih fun b hb => h b (by simp [hb])]

theorem for_each_congr {t s : BitmapRange} (h1 : t.num_bits = s.num_bits)
    (h2 : t.base = s.base)
    (h3 : ∀ i, i < (s.num_bits + 31) / 32 → wordOf t.bitmap i = wordOf s.bitmap i) :
    for_each t = for_each s := by
  show (List.range ((t.num_bits + 31) / 32)).flatMap
      (fun i => whileBits 33 (t.base + 32 * i) (wordOf t.bitmap i)) =
    (List.range ((s.num_bits + 31) / 32)).flatMap
      (fun i => whileBits 33 (s.base + 32 * i) (wordOf s.bitmap i))
  rw [h1, h2]
  apply flatMap_congr_mem
  intro a ha
  rw [List.mem_range] at ha
  rw [h3 a ha]

theorem for_each_zero {s : BitmapRange} (h : ∀ i, s.bitmap i = 0) :
    for_each s = [] := by
  show (List.range ((s.num_bits + 31) / 32)).flatMap
      (fun i => whileBits 33 (s.base + 32 * i) (wordOf s.bitmap i)) = []
  rw [List.flatMap_eq_nil_iff]
  intro i _
  rw [wordOf_zero h, whileBits_zero]

theorem base_update_base (s : BitmapRange) (b : Nat) : (base_update s b).base = b := by
  rw [base_update_eq]
  split
  · rename_i h
    exact h.symm
  · split <;> rfl

theorem base_update_inv {s : BitmapRange} (hwf : WfW s.bitmap)
    (hnum : s.num_bits ≤ NBITS)
    (hclean : ∀ k, s.num_bits ≤ k → bitGet s.bitmap k = false) (b : Nat) :
    WfW (base_update s b).bitmap ∧ (base_update s b).num_bits ≤ NBITS ∧
      ∀ k, (base_update s b).num_bits ≤ k →
        bitGet (base_update s b).bitmap k = false := by
  rw [base_update_eq]
  split
  · exact ⟨hwf, hnum, hclean⟩
  · split
    · obtain ⟨c1, c2, c3, _, _⟩ := inv_shift_map_left hwf hnum hclean (u32 (b - s.base))
      exact ⟨c1, c2, c3⟩
    · obtain ⟨c1, c2, c3, _, _⟩ := inv_shift_map_right hwf hnum hclean (u32 (s.base - b))
      exact ⟨c1, c2, c3⟩

/-! ### Claim theorems -/

/-- C4: the in-place word shifts of the code coincide with the spec's
word-level reference definitions, for every shift amount below `NBITS` and
every word array. -/
theorem c4_shifts_match_spec (ws : Fin NITEMS → Nat) (n : Nat) (hn : n < NBITS) :
    shift_words_left ws n = spec_shift_left ws n ∧
      shift_words_right ws n = spec_shift_right ws n := by
  have hni : NITEMS = 8 := rfl
  have hnb : NBITS = 256 := rfl
  constructor
  · funext d
    rw [shift_words_left_apply]
    show _ = spec_shift_left ws n d
    unfold spec_shift_left
    by_cases hr : n % 32 = 0
    · simp only [if_pos hr]
    · simp only [if_neg hr]
      by_cases h1 : d.val + n / 32 < 7
      · rw [if_pos h1, if_pos (show d.val < NITEMS - n / 32 - 1 by omega)]
      · rw [if_neg h1, if_neg (show ¬ d.val < NITEMS - n / 32 - 1 by omega)]
        by_cases h2 : d.val + n / 32 = 7
        · rw [if_pos h2, if_pos (show d.val = NITEMS - n / 32 - 1 by omega)]
          rfl
        · rw [if_neg h2, if_neg (show ¬ d.val = NITEMS - n / 32 - 1 by omega)]
  · funext d
    rw [shift_words_right_apply]
    show _ = spec_shift_right ws n d
    unfold spec_shift_right
    by_cases hr : n % 32 = 0
    · simp only [if_pos hr]
    · simp only [if_neg hr]

/-- Witness for C4 at a concrete shift of 44 bits on a concrete array. -/
theorem c4_shifts_match_spec_witness :
    shift_words_left (fun j => 7 * j.val + 123456) 44 =
        spec_shift_left (fun j => 7 * j.val + 123456) 44 ∧
      shift_words_right (fun j => 7 * j.val + 123456) 44 =
        spec_shift_right (fun j => 7 * j.val + 123456) 44 :=
  c4_shifts_match_spec (fun j => 7 * j.val + 123456) 44 (by decide)

/-- C5: `add(x)` returns true exactly when `base ≤ x ≤ base + N − 1`, and a
false return leaves the whole state unchanged. -/
theorem c5_add_range_gate (s : BitmapRange) (x : Nat)
    (hrm : s.range_max = s.base + (NBITS - 1)) :
    ((add s x).1 = true ↔ s.base ≤ x ∧ x ≤ s.base + (NBITS - 1)) ∧
      ((add s x).1 = false → (add s x).2 = s) := by
  have hnb : NBITS = 256 := rfl
  unfold add
  by_cases h : s.base ≤ x ∧ x ≤ s.range_max
  · rw [if_pos h]
    exact ⟨⟨fun _ => by omega, fun _ => rfl⟩, fun hf => by simp at hf⟩
  · rw [if_neg h]
    exact ⟨⟨fun ht => by simp at ht, fun hc => absurd hc (by omega)⟩, fun _ => rfl⟩

/-- Witness for C5 with `BitmapRange(10)` and the out-of-window item 9. -/
theorem c5_add_range_gate_witness :
    (((add (bitmapRange 10) 9).1 = true ↔ 10 ≤ 9 ∧ 9 ≤ 10 + (NBITS - 1)) ∧
      ((add (bitmapRange 10) 9).1 = false →
        (add (bitmapRange 10) 9).2 = bitmapRange 10)) :=
  c5_add_range_gate (bitmapRange 10) 9 rfl

/-- C8: `bitmap_set(num_bits, words)` clamps the watermark to
`min(num_bits, N)`, copies exactly the first `⌈min(num_bits,N)/32⌉` input
words and zeroes the rest, preserves `base` and `range_max`, and keeps the
input bits inside the copied words bit-exactly, including those at offsets
at or above the clamped watermark. -/
theorem c8_bitmap_set_spec (s : BitmapRange) (nb : Nat) (ws : Nat → Nat) :
    (bitmap_set s nb ws).num_bits = min nb NBITS ∧
    (bitmap_set s nb ws).base = s.base ∧
    (bitmap_set s nb ws).range_max = s.range_max ∧
    (∀ j : Fin NITEMS, (bitmap_set s nb ws).bitmap j =
      if j.val < (min nb NBITS + 31) / 32 then ws j.val else 0) ∧
    ∀ k, k < 32 * ((min nb NBITS + 31) / 32) →
      bitGet (bitmap_set s nb ws).bitmap k = (ws (k / 32)).testBit (31 - k % 32) := by
  have hnb : NBITS = 256 := rfl
  have hni : NITEMS = 8 := rfl
  refine ⟨rfl, rfl, rfl, fun j => rfl, ?_⟩
  intro k hk
  unfold bitGet
  have h8 : k / 32 < NITEMS := by omega
  rw [show wordOf (bitmap_set s nb ws).bitmap (k / 32) =
      (bitmap_set s nb ws).bitmap ⟨k / 32, h8⟩ from wordOf_val _ ⟨k / 32, h8⟩]
  show (if k / 32 < (min nb NBITS + 31) / 32 then ws (k / 32) else 0).testBit
      (31 - k % 32) = (ws (k / 32)).testBit (31 - k % 32)
  rw [if_pos (by omega)]

/-- C7: reading the state with `bitmap_get` and writing it back with
`bitmap_set` on a range with the same base reproduces the same `for_each`
enumeration. -/
theorem c7_round_trip (s r : BitmapRange) (hnum : s.num_bits ≤ NBITS)
    (hbase : r.base = s.base) :
    for_each (bitmap_set r (bitmap_get s).1 (fun i => wordOf (bitmap_get s).2.1 i)) =
      for_each s := by
  have hnb : NBITS = 256 := rfl
  have hni : NITEMS = 8 := rfl
  apply for_each_congr
  · show min s.num_bits NBITS = s.num_bits
    omega
  · exact hbase
  · intro i hi
    by_cases h8 : i < NITEMS
    · rw [show wordOf (bitmap_set r (bitmap_get s).1
            (fun i => wordOf (bitmap_get s).2.1 i)).bitmap i =
          (bitmap_set r (bitmap_get s).1
            (fun i => wordOf (bitmap_get s).2.1 i)).bitmap ⟨i, h8⟩ from
        wordOf_val _ ⟨i, h8⟩]
      show (if i < (min s.num_bits NBITS + 31) / 32 then wordOf s.bitmap i else 0) =
        wordOf s.bitmap i
      rw [if_pos (by omega)]
    · rw [wordOf_ge _ (by omega), wordOf_ge _ (by omega)]

/-- Witness for C7 on the state of `BitmapRange(7)` after `add(8)`. -/
theorem c7_round_trip_witness :
    for_each (bitmap_set (bitmapRange 7) (bitmap_get ((add (bitmapRange 7) 8).2)).1
        (fun i => wordOf (bitmap_get ((add (bitmapRange 7) 8).2)).2.1 i)) =
      for_each ((add (bitmapRange 7) 8).2) :=
  c7_round_trip ((add (bitmapRange 7) 8).2) (bitmapRange 7) (by decide) (by decide)

/-- C9: a backward `base_update` on an empty range with shift below `N`
leaves the bitmap all-zero but raises the watermark to the shift amount, so
`empty()` turns false while `for_each` emits nothing and `max()` returns
`new_base + shift − 1`. -/
theorem c9_backward_rebase_empty (s : BitmapRange) (b : Nat)
    (hnum : s.num_bits = 0) (hzero : ∀ i, s.bitmap i = 0)
    (hlt : b < s.base) (hsh : s.base - b < NBITS) :
    (base_update s b).num_bits = s.base - b ∧
    (∀ i, (base_update s b).bitmap i = 0) ∧
    isEmpty (base_update s b) = false ∧
    for_each (base_update s b) = [] ∧
    maxValue (base_update s b) = b + (s.base - b) - 1 := by
  have hnb : NBITS = 256 := rfl
  have hU : U32 = 4294967296 := rfl
  have hu : u32 (s.base - b) = s.base - b := by
    unfold u32
    rw [Nat.mod_eq_of_lt (by omega)]
  have hupd : base_update s b =
      { shift_map_right s (s.base - b) with
        base := b, range_max := b + (NBITS - 1) } := by
    rw [base_update_eq, if_neg (by omega), if_neg (by omega), hu]
  have hsm : shift_map_right s (s.base - b) =
      { s with num_bits := s.num_bits + (s.base - b),
               bitmap := shift_words_right s.bitmap (s.base - b) } := by
    rw [shift_map_right_eq, if_neg (by omega)]
    rw [if_neg (by omega)]
  have hzb : ∀ i, (base_update s b).bitmap i = 0 := by
    intro i
    rw [hupd]
    show (shift_map_right s (s.base - b)).bitmap i = 0
    rw [hsm]
    exact shift_words_right_zero hzero (s.base - b) i
  have hnum2 : (base_update s b).num_bits = s.base - b := by
    rw [hupd]
    show (shift_map_right s (s.base - b)).num_bits = s.base - b
    rw [hsm]
    show s.num_bits + (s.base - b) = s.base - b
    omega
  refine ⟨hnum2, hzb, ?_, for_each_zero hzb, ?_⟩
  · unfold isEmpty
    rw [hnum2]
    simp only [beq_eq_false_iff_ne, ne_eq]
    omega
  · unfold maxValue
    rw [hnum2, base_update_base, hU]
    omega

/-- Witness for C9: `BitmapRange(1000)` rebased to 900. -/
theorem c9_backward_rebase_empty_witness :
    (base_update (bitmapRange 1000) 900).num_bits = 1000 - 900 ∧
    (∀ i, (base_update (bitmapRange 1000) 900).bitmap i = 0) ∧
    isEmpty (base_update (bitmapRange 1000) 900) = false ∧
    for_each (base_update (bitmapRange 1000) 900) = [] ∧
    maxValue (base_update (bitmapRange 1000) 900) = 900 + (1000 - 900) - 1 :=
  c9_backward_rebase_empty (bitmapRange 1000) 900 rfl (fun _ => rfl)
    (by decide) (by decide)

/-- C10: `for_each` inspects exactly the words below `⌈num_bits/32⌉` and
emits precisely the set bits found there (including bits at offsets at or
above `num_bits` inside the last inspected word); a set bit at offset
`≥ 32·⌈num_bits/32⌉` is never emitted. -/
theorem c10_for_each_window (s : BitmapRange) (hwf : WfW s.bitmap) (x : Nat) :
    x ∈ for_each s ↔
      ∃ k, k < 32 * ((s.num_bits + 31) / 32) ∧ bitGet s.bitmap k = true ∧
        x = s.base + k :=
  mem_for_each hwf x

theorem foldl_add_spec (S : List Nat) : ∀ s : BitmapRange,
    s.range_max = s.base + (NBITS - 1) → WfW s.bitmap → s.num_bits ≤ NBITS →
    (∀ x ∈ S, s.base ≤ x ∧ x ≤ s.base + (NBITS - 1)) →
    (S.foldl (fun a x => (add a x).2) s).base = s.base ∧
    (S.foldl (fun a x => (add a x).2) s).range_max = s.range_max ∧
    WfW (S.foldl (fun a x => (add a x).2) s).bitmap ∧
    (S.foldl (fun a x => (add a x).2) s).num_bits ≤ NBITS ∧
    s.num_bits ≤ (S.foldl (fun a x => (add a x).2) s).num_bits ∧
    (∀ x ∈ S, x - s.base < (S.foldl (fun a x => (add a x).2) s).num_bits) ∧
    ∀ k, bitGet (S.foldl (fun a x => (add a x).2) s).bitmap k =
      (bitGet s.bitmap k || decide (s.base + k ∈ S)) := by
  induction S with
  | nil =>
    intro s _ h2 h3 _
    refine ⟨rfl, rfl, h2, h3, le_rfl, by simp, ?_⟩
    intro k
    simp
  | cons x S ih =>
    intro s h1 h2 h3 h4
    have hnb : NBITS = 256 := rfl
    have hx : s.base ≤ x ∧ x ≤ s.base + 255 := by
      have := h4 x (by simp)
      omega
    obtain ⟨e0, e1, e2, e3, e4⟩ := add_effect (by omega) hx
    have h4x : ∀ y ∈ S, (add s x).2.base ≤ y ∧ y ≤ (add s x).2.base + (NBITS - 1) := by
      intro y hy
      rw [e1]
      exact h4 y (by simp [hy])
    have hnum1 : (add s x).2.num_bits ≤ NBITS := by
      rw [e3]
      omega
    obtain ⟨c0, c1, c2, c3, c4, c5, c6⟩ := ih ((add s x).2)
      (by rw [e2, e1]; exact h1) (wf_add h2 x) hnum1 h4x
    rw [List.foldl_cons]
    have c4' : max (x - s.base + 1) s.num_bits ≤
        (S.foldl (fun a x => (add a x).2) (add s x).2).num_bits := by
      rw [← e3]
      exact c4
    refine ⟨by rw [c0, e1], by rw [c1, e2], c2, c3, by omega, ?_, ?_⟩
    · intro y hy
      rcases List.mem_cons.mp hy with hyx | hyS
      · subst hyx
        omega
      · have := c5 y hyS
        rw [e1] at this
        exact this
    · intro k
      rw [c6 k, e1, e4 k]
      rw [show decide (k = x - s.base) = decide (s.base + k = x) from
        decide_eq_decide.mpr (by omega)]
      simp only [List.mem_cons, Bool.decide_or, Bool.or_assoc]

/-- C6: adding a duplicate-free set of in-window items in any order to a
freshly based range makes `for_each` emit exactly those items, each once, in
ascending order. -/
theorem c6_enumeration (b : Nat) (S : List Nat) (hnd : S.Nodup)
    (hin : ∀ x ∈ S, b ≤ x ∧ x ≤ b + (NBITS - 1)) :
    (for_each (S.foldl (fun a x => (add a x).2) (bitmapRange b))).Perm S ∧
      List.Pairwise (· < ·)
        (for_each (S.foldl (fun a x => (add a x).2) (bitmapRange b))) := by
  have hnb : NBITS = 256 := rfl
  have hb : (bitmapRange b).base = b := rfl
  obtain ⟨c0, c1, c2, c3, c4, c5, c6⟩ := foldl_add_spec S (bitmapRange b) rfl
    zeroW_lt (Nat.zero_le _) hin
  refine ⟨?_, pairwise_for_each c2⟩
  apply perm_of_mem_iff (nodup_for_each c2) hnd
  intro y
  rw [mem_for_each c2 y]
  constructor
  · rintro ⟨k, hk, hbit, rfl⟩
    rw [c6 k] at hbit
    have hz : bitGet (bitmapRange b).bitmap k = false := bitGet_zero (fun _ => rfl) k
    rw [hz, Bool.false_or] at hbit
    have hmem : (bitmapRange b).base + k ∈ S := of_decide_eq_true hbit
    rw [c0]
    exact hmem
  · intro hy
    have hyb := hin y hy
    have hc5 := c5 y hy
    rw [hb] at hc5
    refine ⟨y - b, by omega, ?_, by rw [c0, hb]; omega⟩
    rw [c6 (y - b)]
    have hz : bitGet (bitmapRange b).bitmap (y - b) = false := bitGet_zero (fun _ => rfl) _
    rw [hz, Bool.false_or, hb]
    rw [show b + (y - b) = y by omega]
    exact decide_eq_true hy

/-- Witness for C6 with base 40 and the items `[45, 41]`. -/
theorem c6_enumeration_witness :
    (for_each ([45, 41].foldl (fun a x => (add a x).2) (bitmapRange 40))).Perm
        [45, 41] ∧
      List.Pairwise (· < ·)
        (for_each ([45, 41].foldl (fun a x => (add a x).2) (bitmapRange 40))) :=
  c6_enumeration 40 [45, 41] (by decide) (by decide)

/-- C1 (amended: the spec's first disjunct gains the possibility of a
positive watermark over an all-zero bitmap, and `bitmap_set` is excluded
from the operation sequence): after any sequence of constructor, hard base
reset, `add` and `base_update` operations, either `num_bits = 0`, or the
bitmap is all-zero, or some offset below `num_bits` is set; and every bit at
an offset at or above `num_bits` is zero. -/
theorem c1_watermark (b0 : Nat) (ops : List BOp) :
    ((runOps b0 ops).num_bits = 0 ∨ (∀ i, (runOps b0 ops).bitmap i = 0) ∨
      ∃ k, k < (runOps b0 ops).num_bits ∧ bitGet (runOps b0 ops).bitmap k = true) ∧
    ∀ k, (runOps b0 ops).num_bits ≤ k → bitGet (runOps b0 ops).bitmap k = false := by
  obtain ⟨h1, h2, h3, h4⟩ := inv_runOps b0 ops
  refine ⟨?_, h4⟩
  rcases witness_or_zero h3 h4 with hz | hw
  · exact Or.inr (Or.inl hz)
  · exact Or.inr (Or.inr hw)

/-- Witness for C1 on the empty run from base 5. -/
theorem c1_watermark_witness :
    (runOps 5 []).num_bits ≤ 3 ∧ bitGet (runOps 5 []).bitmap 3 = false :=
  ⟨by decide, (c1_watermark 5 []).2 3 (by decide)⟩

/-- State after `base_update(900)` on the empty `BitmapRange(1000)`. -/
def cx1 : BitmapRange := runOps 1000 [BOp.update 900]

/-- C1 counterexample: after `BitmapRange(1000); base_update(900)` the
watermark is 100 yet no bit at any offset is set, refuting the claim's
first disjunct as stated. -/
theorem c1_counterexample :
    ¬ (cx1.num_bits = 0 ∨ ∃ k, k < cx1.num_bits ∧ bitGet cx1.bitmap k = true) := by
  intro h
  rcases h with h0 | ⟨k, _, hbit⟩
  · exact absurd h0 (by decide)
  · have hz : ∀ i, cx1.bitmap i = 0 := fun i =>
      shift_words_right_zero (fun _ => rfl) (u32 100) i
    rw [bitGet_zero hz k] at hbit
    exact absurd hbit (by simp)

/-- The scenario of C2: `BitmapRange(1000)`, `add(1000)`, `add(1200)`,
then `base_update(900)`. -/
def scenC2 : BitmapRange :=
  base_update ((add ((add (bitmapRange 1000) 1000).2) 1200).2) 900

/-- C2 counterexample: the spec's scenario 5 is impossible with `N = 256`;
the code keeps only item 1000 (item 1200 falls outside the new window
`[900, 1155]`) and recomputes the watermark to 101, not 301. -/
theorem c2_counterexample :
    ¬ (for_each scenC2 = [1000, 1200] ∧ scenC2.base = 900 ∧
        scenC2.num_bits = 301) := by
  decide

/-- C2 (amended): the scenario yields the enumeration `[1000]`, base 900
and watermark 101. -/
theorem c2_amended :
    for_each scenC2 = [1000] ∧ scenC2.base = 900 ∧ scenC2.num_bits = 101 := by
  decide

/-- Witness for C10 on the state of `BitmapRange(20)` after `add(21)`. -/
theorem c10_for_each_window_witness :
    21 ∈ for_each ((add (bitmapRange 20) 21).2) ↔
      ∃ k, k < 32 * (((add (bitmapRange 20) 21).2.num_bits + 31) / 32) ∧
        bitGet (add (bitmapRange 20) 21).2.bitmap k = true ∧
        21 = (add (bitmapRange 20) 21).2.base + k :=
  c10_for_each_window ((add (bitmapRange 20) 21).2) (by unfold WfW; decide) 21

/-! ### Bit transport through base_update, for C3 -/

theorem base_update_bit_fwd {s : BitmapRange} (hwf : WfW s.bitmap)
    (hnum : s.num_bits ≤ NBITS)
    (hclean : ∀ k, s.num_bits ≤ k → bitGet s.bitmap k = false) {b k : Nat}
    (hd1 : s.base < b → b - s.base < U32) (hd2 : b < s.base → s.base - b < U32)
    (hbit : bitGet (base_update s b).bitmap k = true) :
    s.base ≤ b + k ∧ b + k ≤ s.base + (NBITS - 1) ∧
      bitGet s.bitmap (b + k - s.base) = true := by
  have hnb : NBITS = 256 := rfl
  rw [base_update_eq] at hbit
  by_cases heq : b = s.base
  · rw [if_pos heq] at hbit
    have hk : k < s.num_bits := by
      by_contra hc
      rw [hclean k (by omega)] at hbit
      exact absurd hbit (by simp)
    subst heq
    refine ⟨by omega, by omega, ?_⟩
    rw [Nat.add_sub_cancel_left]
    exact hbit
  · rw [if_neg heq] at hbit
    by_cases hlt : s.base < b
    · rw [if_pos hlt] at hbit
      have hsh : u32 (b - s.base) = b - s.base := by
        unfold u32
        rw [Nat.mod_eq_of_lt (hd1 hlt)]
      rw [hsh, shift_map_left_eq] at hbit
      by_cases hcl : s.num_bits ≤ b - s.base
      · rw [if_pos hcl] at hbit
        have hbit0 : bitGet zeroW k = true := hbit
        rw [bitGet_zero zeroW_eq k] at hbit0
        exact absurd hbit0 (by simp)
      · rw [if_neg hcl] at hbit
        have hbit1 : bitGet (shift_words_left s.bitmap (b - s.base)) k = true := hbit
        rw [bitGet_shift_words_left hwf] at hbit1
        have hk : k + (b - s.base) < s.num_bits := by
          by_contra hc
          rw [hclean _ (by omega)] at hbit1
          exact absurd hbit1 (by simp)
        refine ⟨by omega, by omega, ?_⟩
        rw [show b + k - s.base = k + (b - s.base) by omega]
        exact hbit1
    · have hblt : b < s.base := by omega
      rw [if_neg hlt] at hbit
      have hsh : u32 (s.base - b) = s.base - b := by
        unfold u32
        rw [Nat.mod_eq_of_lt (hd2 hblt)]
      rw [hsh, shift_map_right_eq] at hbit
      by_cases hcl : NBITS ≤ s.base - b
      · rw [if_pos hcl] at hbit
        have hbit0 : bitGet zeroW k = true := hbit
        rw [bitGet_zero zeroW_eq k] at hbit0
        exact absurd hbit0 (by simp)
      · rw [if_neg hcl] at hbit
        have hbit1 : bitGet (shift_words_right s.bitmap (s.base - b)) k = true := hbit
        rw [bitGet_shift_words_right hwf] at hbit1
        by_cases hck : s.base - b ≤ k ∧ k < NBITS
        · rw [if_pos hck] at hbit1
          have hk : k - (s.base - b) < s.num_bits := by
            by_contra hc
            rw [hclean _ (by omega)] at hbit1
            exact absurd hbit1 (by simp)
          refine ⟨by omega, by omega, ?_⟩
          rw [show b + k - s.base = k - (s.base - b) by omega]
          exact hbit1
        · rw [if_neg hck] at hbit1
          exact absurd hbit1 (by simp)

theorem base_update_bit_bwd {s : BitmapRange} (hwf : WfW s.bitmap)
    (hclean : ∀ k, s.num_bits ≤ k → bitGet s.bitmap k = false) {b x : Nat}
    (hd1 : s.base < b → b - s.base < U32) (hd2 : b < s.base → s.base - b < U32)
    (hx1 : s.base ≤ x) (hx2 : x ≤ s.base + (NBITS - 1))
    (hx3 : b ≤ x) (hx4 : x ≤ b + (NBITS - 1))
    (hbit : bitGet s.bitmap (x - s.base) = true) :
    bitGet (base_update s b).bitmap (x - b) = true := by
  have hnb : NBITS = 256 := rfl
  rw [base_update_eq]
  by_cases heq : b = s.base
  · rw [if_pos heq]
    subst heq
    exact hbit
  · rw [if_neg heq]
    by_cases hlt : s.base < b
    · rw [if_pos hlt]
      have hsh : u32 (b - s.base) = b - s.base := by
        unfold u32
        rw [Nat.mod_eq_of_lt (hd1 hlt)]
      rw [hsh, shift_map_left_eq]
      have hbefore : x - s.base < s.num_bits := by
        by_contra hc
        rw [hclean _ (by omega)] at hbit
        exact absurd hbit (by simp)
      rw [if_neg (show ¬ s.num_bits ≤ b - s.base by omega)]
      show bitGet (shift_words_left s.bitmap (b - s.base)) (x - b) = true
      rw [bitGet_shift_words_left hwf]
      rw [show x - b + (b - s.base) = x - s.base by omega]
      exact hbit
    · have hblt : b < s.base := by omega
      rw [if_neg hlt]
      have hsh : u32 (s.base - b) = s.base - b := by
        unfold u32
        rw [Nat.mod_eq_of_lt (hd2 hblt)]
      rw [hsh, shift_map_right_eq]
      rw [if_neg (show ¬ NBITS ≤ s.base - b by omega)]
      show bitGet (shift_words_right s.bitmap (s.base - b)) (x - b) = true
      rw [bitGet_shift_words_right hwf]
      rw [if_pos (show s.base - b ≤ x - b ∧ x - b < NBITS by omega)]
      rw [show x - b - (s.base - b) = x - s.base by omega]
      exact hbit

/-- C3 (amended: restricted to watermark-clean states — every offset at or
above `num_bits` unset; the junk bits deliberately retained by `bitmap_set`
break the claim as stated — and to base distances below `2^32`, the
documented `Diff` precondition): `base_update` keeps exactly the in-window
bits: every item of both windows that was set before is enumerated
afterwards, nothing outside the new window is enumerated, and no bit
becomes set that was not set before. -/
theorem c3_rebase_preserves (s : BitmapRange) (b : Nat)
    (hwf : WfW s.bitmap) (hnum : s.num_bits ≤ NBITS)
    (hclean : ∀ k, s.num_bits ≤ k → bitGet s.bitmap k = false)
    (hd1 : s.base < b → b - s.base < U32) (hd2 : b < s.base → s.base - b < U32) :
    (∀ x, s.base ≤ x → x ≤ s.base + (NBITS - 1) → b ≤ x → x ≤ b + (NBITS - 1) →
      bitGet s.bitmap (x - s.base) = true → x ∈ for_each (base_update s b)) ∧
    (∀ x, x ∈ for_each (base_update s b) → b ≤ x ∧ x ≤ b + (NBITS - 1)) ∧
    ∀ x, b ≤ x → bitGet (base_update s b).bitmap (x - b) = true →
      s.base ≤ x ∧ x ≤ s.base + (NBITS - 1) ∧
        bitGet s.bitmap (x - s.base) = true := by
  have hnb : NBITS = 256 := rfl
  obtain ⟨a1, a2, a3⟩ := base_update_inv hwf hnum hclean b
  refine ⟨?_, ?_, ?_⟩
  · intro x h1 h2 h3 h4 hbit
    have hbit2 := base_update_bit_bwd hwf hclean hd1 hd2 h1 h2 h3 h4 hbit
    rw [mem_for_each a1 x]
    refine ⟨x - b, ?_, hbit2, ?_⟩
    · have hlt : x - b < (base_update s b).num_bits := by
        by_contra hc
        rw [a3 _ (by omega)] at hbit2
        exact absurd hbit2 (by simp)
      omega
    · rw [base_update_base]
      omega
  · intro x hx
    rw [mem_for_each a1 x] at hx
    obtain ⟨k, hk, _, rfl⟩ := hx
    rw [base_update_base]
    omega
  · intro x hxb hbit
    obtain ⟨f1, f2, f3⟩ := base_update_bit_fwd hwf hnum hclean hd1 hd2 hbit
    refine ⟨by omega, by omega, ?_⟩
    rw [show x - s.base = b + (x - b) - s.base by omega]
    exact f3

/-- Witness for C3 on the empty `BitmapRange(50)` rebased to 45. -/
theorem c3_rebase_preserves_witness :
    (∀ x, (bitmapRange 50).base ≤ x → x ≤ (bitmapRange 50).base + (NBITS - 1) →
      45 ≤ x → x ≤ 45 + (NBITS - 1) →
      bitGet (bitmapRange 50).bitmap (x - (bitmapRange 50).base) = true →
      x ∈ for_each (base_update (bitmapRange 50) 45)) ∧
    (∀ x, x ∈ for_each (base_update (bitmapRange 50) 45) →
      45 ≤ x ∧ x ≤ 45 + (NBITS - 1)) ∧
    ∀ x, 45 ≤ x →
      bitGet (base_update (bitmapRange 50) 45).bitmap (x - 45) = true →
      (bitmapRange 50).base ≤ x ∧ x ≤ (bitmapRange 50).base + (NBITS - 1) ∧
        bitGet (bitmapRange 50).bitmap (x - (bitmapRange 50).base) = true :=
  c3_rebase_preserves (bitmapRange 50) 45 zeroW_lt (Nat.zero_le _)
    (fun k _ => bitGet_zero (fun _ => rfl) k)
    (fun h => absurd h (by decide)) (fun _ => by decide)

/-- The pre-state of the C3 counterexample: `bitmap_set(1, [0x80000001])` on
`BitmapRange(100)` retains the junk bit at offset 31. -/
def cx3 : BitmapRange :=
  bitmap_set (bitmapRange 100) 1 (fun i => if i = 0 then 2147483649 else 0)

/-- C3 counterexample: item 131 is set before `base_update(99)` and lies in
both the old window `[100, 355]` and the new window `[99, 354]`, yet it is
not enumerated afterwards — the junk bit retained by `bitmap_set` moves to
offset 32, which `for_each` never scans because the watermark is 2. -/
theorem c3_counterexample :
    bitGet cx3.bitmap (131 - cx3.base) = true ∧
    cx3.base ≤ 131 ∧ 131 ≤ cx3.base + (NBITS - 1) ∧
    99 ≤ 131 ∧ 131 ≤ 99 + (NBITS - 1) ∧
    131 ∉ for_each (base_update cx3 99) := by
  decide

end FixedBitmap
